import Mathlib

/-!
Formal model of the RAG API server in `apps/api/src/index.js`: the chunker
(`chunkText`), cosine similarity (`dot`, `norm`, `cosineSim`), the retrieval
pipeline of `POST /chat`, the ingest handler (`POST /rag/ingest`) and the chat
orchestration, together with proofs of the specified properties.

Texts are modelled as `List Char` (JS strings), JS numbers as real numbers
(`ℝ`) where vector arithmetic matters and as exact numerals elsewhere.
-/

namespace RagApi

/-- Chunker configuration: `RAG_CHUNK_MAX_CHARS` (default 800) and
`RAG_CHUNK_OVERLAP_CHARS` (default 120), read by `chunkText` from the
environment. -/
structure ChunkCfg where
  maxLen : Nat
  overlap : Nat
deriving DecidableEq

/-- The default configuration `{ maxLen := 800, overlap := 120 }`. -/
def defaultChunkCfg : ChunkCfg := ⟨800, 120⟩

/-- Model of `text.replace(/\r\n/g, "\n")`: replace every (left-to-right,
non-overlapping) occurrence of CR LF by LF. -/
def normalizeNewlines : List Char → List Char
  | '\r' :: '\n' :: rest => '\n' :: normalizeNewlines rest
  | c :: rest => c :: normalizeNewlines rest
  | [] => []

/-- ASCII whitespace, as trimmed by `String.prototype.trim` (the JS function
also strips further Unicode space code points, which the model omits). -/
def isWS (c : Char) : Bool :=
  c = ' ' || c = '\n' || c = '\t' || c = '\r' || c = '\x0b' || c = '\x0c'

/-- Model of `s.trim()`: strip whitespace from both ends. -/
def trim (l : List Char) : List Char :=
  ((l.dropWhile isWS).reverse.dropWhile isWS).reverse

/-- Worker for `splitParas`. `acc` is the current segment, reversed, without
the newlines seen since the last non-newline character; `nl` counts those
pending newlines. A pending run of two or more newlines is a separator
(the regex `\n\n+` with maximal munch), a single one belongs to the segment. -/
def splitParasAux (acc : List Char) (nl : Nat) : List Char → List (List Char)
  | [] =>
      if 2 ≤ nl then [acc.reverse, []]
      else [(List.replicate nl '\n' ++ acc).reverse]
  | c :: rest =>
      if c = '\n' then splitParasAux acc (nl + 1) rest
      else if 2 ≤ nl then acc.reverse :: splitParasAux [c] 0 rest
      else splitParasAux (c :: (List.replicate nl '\n' ++ acc)) 0 rest

/-- Model of `normalized.split(/\n\n+/)`: split on each maximal run of two or
more newlines. -/
def splitParas (l : List Char) : List (List Char) := splitParasAux [] 0 l

example : splitParas "a\n\n\nb\ncd".toList = [['a'], ['b', '\n', 'c', 'd']] := by decide
example : splitParas "\n\na\n\n".toList = [[], ['a'], []] := by decide

/-- Model of the sliding-window `while` loop of `chunkText` over one segment
longer than `maxLen`: `e = min(len, start + maxLen)`, push `part.slice(start, e)`,
stop after pushing once `e` reaches the end, otherwise continue from
`max(0, e - overlap)` (which is `e - overlap` in truncated `Nat` subtraction).
`fuel` bounds the number of iterations; `none` means the loop has not finished
within `fuel` iterations (the JS loop would still be running). -/
def loopWindows (cfg : ChunkCfg) (part : List Char) : Nat → Nat → Option (List (List Char))
  | _, 0 => none
  | start, fuel + 1 =>
      if start < part.length then
        if part.length ≤ min part.length (start + cfg.maxLen) then
          some [(part.drop start).take (min part.length (start + cfg.maxLen) - start)]
        else
          match loopWindows cfg part (min part.length (start + cfg.maxLen) - cfg.overlap) fuel with
          | none => none
          | some ws =>
              some ((part.drop start).take (min part.length (start + cfg.maxLen) - start) :: ws)
      else some []

/-- Chunks contributed by a single trimmed segment: a segment of length at most
`maxLen` is pushed whole, a longer one goes through the window loop (with
enough fuel for any terminating run, see `loopWindows_total`). -/
def chunkPart (cfg : ChunkCfg) (part : List Char) : Option (List (List Char)) :=
  if part.length ≤ cfg.maxLen then some [part]
  else loopWindows cfg part 0 (part.length + 1)

/-- Model of `chunkText`: normalize line endings, split on blank-line runs,
trim each part, drop empty parts, then emit each part's chunks in order.
`none` models the case where the JS `while` loop never terminates. -/
def chunkText (cfg : ChunkCfg) (text : List Char) : Option (List (List Char)) := do
  let parts := ((splitParas (normalizeNewlines text)).map trim).filter fun s => !s.isEmpty
  let chunkss ← parts.mapM (chunkPart cfg)
  pure chunkss.flatten

example : chunkText defaultChunkCfg "a\n\nb".toList = some [['a'], ['b']] := by decide
example : chunkText defaultChunkCfg "  hi  ".toList = some [['h', 'i']] := by decide
example : chunkText ⟨3, 1⟩ "aaaa".toList = some [['a', 'a', 'a'], ['a', 'a']] := by decide
example : chunkText ⟨1, 1⟩ "ab".toList = none := by decide
example : chunkText defaultChunkCfg "   ".toList = some [] := by decide
example : chunkText defaultChunkCfg "ab\r\ncd".toList = some [['a', 'b', '\n', 'c', 'd']] := by
  decide

noncomputable section VectorMath

/-- Model of `dot(a, b)`: sum of pairwise products. The JS loop runs over the
indices of `a`; stored vectors share one dimension per corpus (spec §3), and
the model truncates at the shorter vector. -/
def dot (a b : List ℝ) : ℝ := ((a.zip b).map fun p => p.1 * p.2).sum

/-- Model of `norm(a) = Math.sqrt(dot(a, a))`. -/
def norm (a : List ℝ) : ℝ := Real.sqrt (dot a a)

/-- Model of `cosineSim(a, b)`: `0` when the denominator `norm(a) * norm(b)`
is `0`, otherwise `dot(a, b)` divided by that denominator. -/
def cosineSim (a b : List ℝ) : ℝ :=
  if norm a * norm b = 0 then 0 else dot a b / (norm a * norm b)

end VectorMath

/-- A row of the `rag_chunks` table as read back by the retrieval query of
`POST /chat`. `embedding` models `JSON.parse(row.embedding_json)`: `some v`
when the stored text parses to an array (`Array.isArray(vec)`), `none` when
parsing throws or yields a non-array. -/
structure RagRow where
  id : Nat
  source : String
  chunk_index : Nat
  content : String
  embedding : Option (List ℝ)
  created_at : Nat

noncomputable section Retrieval

/-- The score `/chat` assigns a row: `cosineSim(queryEmbedding, vec)` when the
row's `embedding_json` parsed to an array, `-1` otherwise. -/
def scoreRow (q : List ℝ) (r : RagRow) : ℝ :=
  match r.embedding with
  | some v => cosineSim q v
  | none => -1

/-- The scored list before sorting: map each row to a `(row, score)` pair and
keep the pairs with `score >= 0`. -/
def scoredRows (q : List ℝ) (rows : List RagRow) : List (RagRow × ℝ) :=
  (rows.map fun r => (r, scoreRow q r)).filter fun x => decide (0 ≤ x.2)

/-- The order imposed by the comparator `(a, b) => b.score - a.score`: `a` may
be placed before `b` exactly when `b.score ≤ a.score`. -/
def scoreGE (a b : RagRow × ℝ) : Prop := b.2 ≤ a.2

instance : DecidableRel scoreGE := fun a b => inferInstanceAs (Decidable (b.2 ≤ a.2))

instance : IsTotal (RagRow × ℝ) scoreGE := ⟨fun a b => (le_total b.2 a.2).imp id id⟩

instance : IsTrans (RagRow × ℝ) scoreGE := ⟨fun _ _ _ hab hbc => le_trans hbc hab⟩

/-- Model of `.sort((a, b) => b.score - a.score)`: JS `Array.prototype.sort`
is stable, so the result is exactly the stable descending reordering, which
insertion sort by `scoreGE` computes. -/
def sortByScore (l : List (RagRow × ℝ)) : List (RagRow × ℝ) := l.insertionSort scoreGE

/-- The retrieval pipeline of `POST /chat`: score every stored row against the
query embedding, drop negative scores, sort descending (stably), and
`slice(0, topK)`. -/
def retrieve (q : List ℝ) (rows : List RagRow) (k : Nat) : List (RagRow × ℝ) :=
  (sortByScore (scoredRows q rows)).take k

end Retrieval

/-- Message roles accepted by `ChatRequestSchema` (`z.enum(["user", "assistant"])`);
any other role string fails parsing and is therefore not representable. -/
inductive Role
  | user
  | assistant
deriving DecidableEq

/-- A chat message `{ role, content }`; the `content: z.string().min(1)` bound
is checked by `chatReqValid`. -/
structure Msg where
  role : Role
  content : String
deriving DecidableEq

/-- The parsed body of `POST /chat` (`ChatRequestSchema`). The `temperature`
number is modelled as `ℚ`, the integral fields as `Int`/`Nat`. -/
structure ChatReq where
  messages : List Msg
  temperature : Option ℚ := none
  max_tokens : Option Int := none
  use_rag : Option Bool := none
  top_k : Option Nat := none

/-- Model of `ChatRequestSchema.safeParse(req.body).success` on a structurally
well-typed body: every message content is non-empty, `temperature` lies in
`[0, 2]`, `max_tokens` is a positive integer at most `8192`, and `top_k` is a
positive integer at most `10`. `z.array(...)` places no lower bound on the
number of messages. -/
def chatReqValid (r : ChatReq) : Bool :=
  r.messages.all (fun m => decide (0 < m.content.length)) &&
  (match r.temperature with
   | none => true
   | some t => decide (0 ≤ t) && decide (t ≤ 2)) &&
  (match r.max_tokens with
   | none => true
   | some n => decide (0 < n) && decide (n ≤ 8192)) &&
  (match r.top_k with
   | none => true
   | some k => decide (0 < k) && decide (k ≤ 10))

/-- Roles occurring in the provider call (the handler prepends `system`
messages to the client's messages). -/
inductive PRole
  | system
  | user
  | assistant
deriving DecidableEq

/-- A message of the upstream chat-completion request. -/
structure PMsg where
  role : PRole
  content : String
deriving DecidableEq

/-- A client message forwarded verbatim into the provider call. -/
def toPMsg (m : Msg) : PMsg :=
  ⟨match m.role with | .user => .user | .assistant => .assistant, m.content⟩

/-- The constant `DEFAULT_SYSTEM_PROMPT`. -/
def defaultSystemPrompt : String :=
  "You are a helpful assistant. Answer clearly and concisely. If you are unsure, say you are unsure."

/-- The fixed prefix of the retrieval-context system instruction. -/
def ctxInstructionPrefix : String :=
  "Use the following context to answer the user. If the context is insufficient, say you are unsure.\n\n"

/-- Model of `Array.prototype.join(sep)`. -/
def joinSep (sep : String) : List String → String
  | [] => ""
  | [s] => s
  | s :: rest => s ++ sep ++ joinSep sep rest

/-- One entry of the retrieval context:
`Source: ${source}#${chunk_index}\n${content}`. -/
def ctxEntry (x : RagRow × ℝ) : String :=
  "Source: " ++ x.1.source ++ "#" ++ toString x.1.chunk_index ++ "\n" ++ x.1.content

/-- The `ragContext` string: the entries of the scored list joined by blank
lines. -/
def ragContextOf (scored : List (RagRow × ℝ)) : String :=
  joinSep "\n\n" (scored.map ctxEntry)

/-- A citation as returned in the `/chat` success body. -/
structure Citation where
  id : Nat
  source : String
  chunkIndex : Nat
  score : ℝ

/-- The citation derived from one scored pair. -/
def mkCitation (x : RagRow × ℝ) : Citation := ⟨x.1.id, x.1.source, x.1.chunk_index, x.2⟩

/-- The `citations` array built from the scored list. -/
def citationsOf (scored : List (RagRow × ℝ)) : List Citation := scored.map mkCitation

/-- Process-wide configuration read from the environment. `apiKey = none`
models a missing (or falsy, e.g. empty) `DEEPSEEK_API_KEY`; `ragTopK` is
`Number(RAG_TOP_K ?? 4)`. -/
structure ApiCfg where
  apiKey : Option String
  model : String
  systemPrompt : String
  ragTopK : Nat
  chunkCfg : ChunkCfg

/-- One outbound network call made by a handler, in order of occurrence. -/
inductive ExtCall
  | embedCall (input : String)
  | completionCall (messages : List PMsg)

/-- The outcome of the chat-completion `fetch`, as the handler observes it:
a `res.ok` response with the extracted `data?.choices?.[0]?.message?.content`
(when that is a string), a non-2xx response with status and body text, or a
rejected promise — the `fetch` threw, e.g. because the timeout fired and the
`AbortController` aborted the in-flight call. -/
inductive CompletionOutcome
  | httpOk (content : Option String)
  | httpErr (status : Nat) (body : String)
  | failed

/-- An HTTP response of the `/chat` handler: status, the `code` field of error
bodies, the `message` field (error text, or the answer on success), the
correlation id echoed in every response, and the `citations` of the success
body. -/
structure ChatResp where
  status : Nat
  code : Option String
  message : Option String
  requestId : String
  citations : List Citation

/-- The 400 `BAD_REQUEST` response. -/
def badRequestResp (rid : String) : ChatResp :=
  ⟨400, some "BAD_REQUEST", some "Invalid request body", rid, []⟩

/-- The 500 `MISSING_API_KEY` response. -/
def missingKeyResp (rid : String) : ChatResp :=
  ⟨500, some "MISSING_API_KEY", some "Missing DEEPSEEK_API_KEY", rid, []⟩

/-- The catch-all 500 `INTERNAL_ERROR` response. -/
def internalErrorResp (rid : String) : ChatResp :=
  ⟨500, some "INTERNAL_ERROR", some "Internal server error", rid, []⟩

/-- The 502 `UPSTREAM_ERROR` response (`errText || "Upstream HTTP " + status`). -/
def upstreamErrorResp (rid : String) (st : Nat) (body : String) : ChatResp :=
  ⟨502, some "UPSTREAM_ERROR",
    some (if body.length = 0 then "Upstream HTTP " ++ toString st else body), rid, []⟩

/-- The 502 `BAD_UPSTREAM_RESPONSE` response. -/
def badUpstreamResp (rid : String) : ChatResp :=
  ⟨502, some "BAD_UPSTREAM_RESPONSE", some "Upstream returned an invalid response", rid, []⟩

/-- The 200 success response of `/chat`. -/
def okChatResp (rid answer : String) (cites : List Citation) : ChatResp :=
  ⟨200, none, some answer, rid, cites⟩

/-- Model of `[...messages].reverse().find((m) => m.role === "user")?.content`. -/
def lastUserContent (msgs : List Msg) : Option String :=
  (msgs.reverse.find? fun m => decide (m.role = Role.user)).map Msg.content

noncomputable section ChatHandler

/-- The retrieval phase of `POST /chat`, entered only when `use_rag === true`;
the query embedding is taken only when a latest user message exists and is
non-empty. Returns the outbound calls made and `none` when `embedText` threw
(the handler then falls into its catch-all), otherwise
`some (ragContext, citations)`. -/
def ragPhase (embedO : String → Option (List ℝ)) (rows : List RagRow) (topK : Nat)
    (useRag : Bool) (lastUser : Option String) :
    List ExtCall × Option (String × List Citation) :=
  if useRag then
    match lastUser with
    | some s =>
        if 0 < s.length then
          match embedO s with
          | none => ([.embedCall s], none)
          | some qv =>
              ([.embedCall s],
                some (ragContextOf (retrieve qv rows topK),
                  citationsOf (retrieve qv rows topK)))
        else ([], some ("", []))
    | none => ([], some ("", []))
  else ([], some ("", []))

/-- Model of the `POST /chat` handler: validate, check the key, optionally run
retrieval, call the completion provider on the augmented message list, and map
the outcome to a response. `embedO` and `completeO` give the providers'
behaviour on this request; the first component records the outbound calls in
order. -/
def chatHandler (cfg : ApiCfg) (embedO : String → Option (List ℝ)) (rows : List RagRow)
    (completeO : List PMsg → CompletionOutcome) (rid : String) (req : ChatReq) :
    List ExtCall × ChatResp :=
  if chatReqValid req then
    match cfg.apiKey with
    | none => ([], missingKeyResp rid)
    | some _ =>
        match ragPhase embedO rows (req.top_k.getD cfg.ragTopK) (req.use_rag == some true)
            (lastUserContent req.messages) with
        | (calls, none) => (calls, internalErrorResp rid)
        | (calls, some (ragContext, citations)) =>
            let msgs := ⟨PRole.system, cfg.systemPrompt⟩ ::
              ((if req.use_rag == some true ∧ 0 < ragContext.length then
                  [⟨PRole.system, ctxInstructionPrefix ++ ragContext⟩]
                else []) ++ req.messages.map toPMsg)
            (calls ++ [.completionCall msgs],
              match completeO msgs with
              | .failed => internalErrorResp rid
              | .httpErr st body => upstreamErrorResp rid st body
              | .httpOk content =>
                  match content with
                  | some s =>
                      if 0 < s.length then okChatResp rid s citations else badUpstreamResp rid
                  | none => badUpstreamResp rid)
  else ([], badRequestResp rid)

end ChatHandler

/-- The rows the ingest loop builds before running the transaction: chunk `i`
is embedded sequentially and in order, and a thrown `embedText` call aborts
the whole loop (`none`). `baseId` stands for the autoincrement id the insert
assigns. -/
def buildRows (embed : String → Option (List ℝ)) (src : String) (now : Nat)
    (baseId : Nat) : List (List Char) → Nat → Option (List RagRow)
  | [], _ => some []
  | c :: cs, i => do
      let v ← embed (String.mk c)
      let rest ← buildRows embed src now baseId cs (i + 1)
      pure ({ id := baseId + i, source := src, chunk_index := i, content := String.mk c,
              embedding := some v, created_at := now } :: rest)

/-- A response of `POST /rag/ingest`: status, error `code` (absent on
success), correlation id, and the inserted `chunks` count of the success
body. -/
structure IngestResp where
  status : Nat
  code : Option String
  requestId : String
  chunks : Option Nat
deriving DecidableEq

/-- The ingest 200 success response. -/
def ingestOkResp (rid : String) (count : Nat) : IngestResp := ⟨200, none, rid, some count⟩

/-- The ingest 400 `BAD_REQUEST` response. -/
def ingestBadRequestResp (rid : String) : IngestResp := ⟨400, some "BAD_REQUEST", rid, none⟩

/-- The ingest 500 `MISSING_API_KEY` response. -/
def ingestMissingKeyResp (rid : String) : IngestResp := ⟨500, some "MISSING_API_KEY", rid, none⟩

/-- The ingest catch-all 500 `INTERNAL_ERROR` response. -/
def ingestInternalErrorResp (rid : String) : IngestResp := ⟨500, some "INTERNAL_ERROR", rid, none⟩

/-- Model of the `POST /rag/ingest` handler: validate (`RagIngestSchema` needs
non-empty `source` and `text`), check the key, chunk, embed every chunk, then
insert all rows in one `db.transaction`. The result is the store after the
call and the response; the outer `none` models a never-terminating `chunkText`
(the request never completes). The transaction runs only after every chunk was
embedded, so a thrown `embedText` leaves the store untouched. -/
def ragIngest (cfg : ApiCfg) (embed : String → Option (List ℝ)) (rid : String) (now : Nat)
    (src : String) (text : List Char) (store : List RagRow) :
    Option (List RagRow × IngestResp) :=
  if src.length = 0 ∨ text.length = 0 then some (store, ingestBadRequestResp rid)
  else
    match cfg.apiKey with
    | none => some (store, ingestMissingKeyResp rid)
    | some _ =>
        match chunkText cfg.chunkCfg text with
        | none => none
        | some chunks =>
            match buildRows embed src now store.length chunks 0 with
            | none => some (store, ingestInternalErrorResp rid)
            | some rows => some (store ++ rows, ingestOkResp rid rows.length)

/-- Whether the text contains two consecutive newlines — the position where
the split regex `\n\n+` matches. -/
def hasParaBreak : List Char → Bool
  | [] => false
  | c :: rest => (decide (c = '\n') && rest.head? == some '\n') || hasParaBreak rest

/-- Chunk `b` continues chunk `a` with an overlap of exactly `ov` characters:
`b` begins with the final `ov` characters of `a`. -/
def overlapRel (ov : Nat) (a b : List Char) : Prop :=
  b.take ov = a.drop (a.length - ov)

instance (ov : Nat) (a b : List Char) : Decidable (overlapRel ov a b) :=
  inferInstanceAs (Decidable (b.take ov = a.drop (a.length - ov)))

/-- A concrete configuration (API key present, default model, prompt and
chunking settings) used by the closed theorems about the handlers. -/
def cfgW : ApiCfg :=
  ⟨some "key", "deepseek-chat", defaultSystemPrompt, 4, defaultChunkCfg⟩

/-- A concrete retrieval-enabled one-message request used by the closed
theorems about the chat handler. -/
def reqRag : ChatReq := { messages := [⟨Role.user, "hi"⟩], use_rag := some true }

/-!
Theorems. Helper lemmas come first inside each group; the theorem (and
witness or counterexample) named by a claim is marked with the claim id.
-/

theorem dot_cons (x y : ℝ) (a b : List ℝ) : dot (x :: a) (y :: b) = x * y + dot a b := by
  simp [dot]

theorem dot_self_nonneg (v : List ℝ) : 0 ≤ dot v v := by
  induction v with
  | nil => simp [dot]
  | cons x a ih => rw [dot_cons]; have := mul_self_nonneg x; linarith

theorem dot_self_pos {v : List ℝ} {x : ℝ} (hx : x ∈ v) (hx0 : x ≠ 0) : 0 < dot v v := by
  induction v with
  | nil => simp at hx
  | cons y a ih =>
      rw [dot_cons]
      rcases List.mem_cons.mp hx with h | h
      · have h1 : 0 < x * x := mul_self_pos.mpr hx0
        have h2 := dot_self_nonneg a
        subst h
        linarith
      · have h1 := ih h
        have h2 := mul_self_nonneg y
        linarith

theorem dot_replicate_zero (n : Nat) :
    dot (List.replicate n (0 : ℝ)) (List.replicate n (0 : ℝ)) = 0 := by
  induction n with
  | zero => simp [dot]
  | succ m ih => rw [List.replicate_succ, dot_cons, ih]; ring

/-- C9: `cosineSim(v, zeroVector)` is `0` for every `v` — the zero denominator
is guarded, not divided by — and `cosineSim(v, v) = 1` for every non-zero `v`
(exactly `1` in the real-number model of JS floats, hence `≈ 1`). -/
theorem cosineSim_zero_vector_and_self :
    (∀ (v : List ℝ) (n : Nat), cosineSim v (List.replicate n 0) = 0) ∧
    (∀ (v : List ℝ) (x : ℝ), x ∈ v → x ≠ 0 → cosineSim v v = 1) := by
  constructor
  · intro v n
    have hz : norm (List.replicate n (0 : ℝ)) = 0 := by
      rw [norm, dot_replicate_zero, Real.sqrt_zero]
    rw [cosineSim, if_pos (by rw [hz, mul_zero])]
  · intro v x hx hx0
    have hd : 0 < dot v v := dot_self_pos hx hx0
    have hnn : norm v * norm v = dot v v := Real.mul_self_sqrt hd.le
    rw [cosineSim, hnn, if_neg hd.ne', div_self hd.ne']

/-- Witness for C9 at the concrete non-zero vector `[1]`. -/
theorem cosineSim_zero_vector_and_self_witness :
    ((1 : ℝ) ∈ [(1 : ℝ)] ∧ (1 : ℝ) ≠ 0) ∧ cosineSim [(1 : ℝ)] [(1 : ℝ)] = 1 :=
  ⟨⟨by simp, by norm_num⟩,
    cosineSim_zero_vector_and_self.2 [(1 : ℝ)] 1 (by simp) (by norm_num)⟩

theorem orderedInsert_filter_score (x : RagRow × ℝ) (s : ℝ) :
    ∀ l : List (RagRow × ℝ),
      (l.orderedInsert scoreGE x).filter (fun y => decide (y.2 = s)) =
        if x.2 = s then x :: l.filter (fun y => decide (y.2 = s))
        else l.filter (fun y => decide (y.2 = s)) := by
  intro l
  induction l with
  | nil =>
      by_cases hx : x.2 = s <;>
        simp [List.orderedInsert, List.filter_cons, hx]
  | cons y t ih =>
      have hunf : List.orderedInsert scoreGE x (y :: t) =
          if scoreGE x y then x :: y :: t else y :: List.orderedInsert scoreGE x t := rfl
      rw [hunf]
      by_cases hxy : scoreGE x y
      · rw [if_pos hxy]
        by_cases hx : x.2 = s <;> simp [List.filter_cons, hx]
      · rw [if_neg hxy]
        by_cases hx : x.2 = s
        · have hy : ¬(y.2 = s) := fun h => hxy (le_of_eq (h.trans hx.symm))
          simp [List.filter_cons, hx, hy, ih]
        · simp [List.filter_cons, hx, ih]

theorem sortByScore_filter_score (s : ℝ) :
    ∀ l : List (RagRow × ℝ),
      (sortByScore l).filter (fun y => decide (y.2 = s)) =
        l.filter (fun y => decide (y.2 = s)) := by
  intro l
  induction l with
  | nil => rfl
  | cons x t ih =>
      have hunf : sortByScore (x :: t) = List.orderedInsert scoreGE x (sortByScore t) := rfl
      rw [hunf, orderedInsert_filter_score]
      by_cases hx : x.2 = s <;> simp [List.filter_cons, hx, ih]

/-- C2: `retrieve` returns at most `k` pairs, with non-increasing scores;
every returned pair is a stored row whose embedding parsed, scored with a
non-negative cosine similarity (negative-similarity and unparsable rows are
excluded entirely, not ranked low); and for every score value the returned
pairs carrying it are a prefix of the qualifying pairs in original scan order
(ties keep the scan order, the sort being stable). -/
theorem retrieve_spec (q : List ℝ) (rows : List RagRow) (k : Nat) (hk : 1 ≤ k) :
    (retrieve q rows k).length ≤ k ∧
    List.Pairwise (fun a b : RagRow × ℝ => b.2 ≤ a.2) (retrieve q rows k) ∧
    (∀ x ∈ retrieve q rows k, ∃ v, x.1.embedding = some v ∧ x.2 = cosineSim q v ∧ 0 ≤ x.2) ∧
    (∀ s : ℝ, ∃ rest, (scoredRows q rows).filter (fun y => decide (y.2 = s)) =
        (retrieve q rows k).filter (fun y => decide (y.2 = s)) ++ rest) := by
  refine ⟨?_, ?_, ?_, ?_⟩
  · exact List.length_take_le k _
  · exact List.Pairwise.sublist (List.take_sublist k _) (List.sorted_insertionSort scoreGE _)
  · intro x hx
    have hx1 : x ∈ sortByScore (scoredRows q rows) := List.take_subset k _ hx
    have hx2 : x ∈ scoredRows q rows := (List.perm_insertionSort scoreGE _).mem_iff.mp hx1
    obtain ⟨hmem, hscore⟩ := List.mem_filter.mp hx2
    obtain ⟨r, hr, hxr⟩ := List.mem_map.mp hmem
    have h0 : (0 : ℝ) ≤ x.2 := of_decide_eq_true hscore
    subst hxr
    cases hemb : r.embedding with
    | none =>
        exfalso
        rw [show ((r, scoreRow q r) : RagRow × ℝ).2 = scoreRow q r from rfl, scoreRow, hemb] at h0
        norm_num at h0
    | some v =>
        refine ⟨v, ?_, ?_, h0⟩
        · simp [hemb]
        · simp [scoreRow, hemb]
  · intro s
    refine ⟨((sortByScore (scoredRows q rows)).drop k).filter (fun y => decide (y.2 = s)), ?_⟩
    rw [show retrieve q rows k = (sortByScore (scoredRows q rows)).take k from rfl,
      ← List.filter_append, List.take_append_drop, sortByScore_filter_score]

/-- Witness for C2 at `k = 1` with an empty store and an empty query. -/
theorem retrieve_spec_witness :
    1 ≤ 1 ∧
    ((retrieve [] [] 1).length ≤ 1 ∧
      List.Pairwise (fun a b : RagRow × ℝ => b.2 ≤ a.2) (retrieve [] [] 1) ∧
      (∀ x ∈ retrieve [] [] 1, ∃ v, x.1.embedding = some v ∧ x.2 = cosineSim [] v ∧ 0 ≤ x.2) ∧
      (∀ s : ℝ, ∃ rest, (scoredRows [] []).filter (fun y => decide (y.2 = s)) =
          (retrieve [] [] 1).filter (fun y => decide (y.2 = s)) ++ rest)) :=
  ⟨le_refl 1, retrieve_spec [] [] 1 (le_refl 1)⟩

theorem normalizeNewlines_length_le (l : List Char) :
    (normalizeNewlines l).length ≤ l.length := by
  induction l using normalizeNewlines.induct <;> simp [normalizeNewlines] <;> omega

theorem trim_length_le (l : List Char) : (trim l).length ≤ l.length := by
  have h1 := List.Sublist.length_le (List.dropWhile_sublist (l := l) isWS)
  have h2 := List.Sublist.length_le
    (List.dropWhile_sublist (l := (l.dropWhile isWS).reverse) isWS)
  simp only [trim, List.length_reverse] at *
  omega

theorem splitParasAux_no_break :
    ∀ (l acc : List Char) (nl : Nat), nl ≤ 1 →
      (nl = 1 → l.head? ≠ some '\n') → hasParaBreak l = false →
      splitParasAux acc nl l = [(List.replicate nl '\n' ++ acc).reverse ++ l] := by
  intro l
  induction l with
  | nil =>
      intro acc nl h1 _ _
      simp only [splitParasAux]
      rw [if_neg (by omega : ¬ 2 ≤ nl)]
      simp
  | cons c rest ih =>
      intro acc nl h1 h2 h3
      have h3' : (decide (c = '\n') && (rest.head? == some '\n')) = false ∧
          hasParaBreak rest = false := by
        rw [← Bool.or_eq_false_iff]
        exact h3
      obtain ⟨hA, hB⟩ := h3'
      by_cases hc : c = '\n'
      · subst hc
        have hh : rest.head? ≠ some '\n' := by
          intro hcontra
          rw [hcontra] at hA
          simp at hA
        cases nl with
        | zero =>
            simp only [splitParasAux, if_pos rfl]
            rw [ih acc 1 (le_refl 1) (fun _ => hh) hB]
            simp
        | succ m =>
            have hm : m + 1 = 1 := by omega
            exact absurd rfl (h2 hm)
      · simp only [splitParasAux]
        rw [if_neg hc, if_neg (by omega : ¬ 2 ≤ nl)]
        rw [ih (c :: (List.replicate nl '\n' ++ acc)) 0 (by omega)
          (fun h => absurd h (by norm_num)) hB]
        simp

theorem splitParas_no_break {l : List Char} (h : hasParaBreak l = false) :
    splitParas l = [l] := by
  have hx := splitParasAux_no_break l [] 0 (by omega) (fun h => absurd h (by norm_num)) h
  simpa [splitParas] using hx

/-- C3 (amended): for any input that is non-whitespace, contains no blank-line
paragraph break after newline normalization, and is shorter than the
configured maximum chunk length, `chunkText` returns exactly one chunk, equal
to the trimmed (line-ending-normalized) input. The counterexample
`chunk_short_cex` shows the paragraph-break condition is necessary. -/
theorem chunk_short_single (cfg : ChunkCfg) (text : List Char)
    (hnb : hasParaBreak (normalizeNewlines text) = false)
    (hne : trim (normalizeNewlines text) ≠ [])
    (hlen : text.length < cfg.maxLen) :
    chunkText cfg text = some [trim (normalizeNewlines text)] := by
  have hlen2 : (trim (normalizeNewlines text)).length ≤ cfg.maxLen :=
    le_trans (trim_length_le _) (le_trans (normalizeNewlines_length_le _) hlen.le)
  have hfe : (trim (normalizeNewlines text)).isEmpty = false := by
    cases hcase : trim (normalizeNewlines text) with
    | nil => exact absurd hcase hne
    | cons a l => rfl
  have hcp : chunkPart cfg (trim (normalizeNewlines text)) = some [trim (normalizeNewlines text)] := by
    simp [chunkPart, hlen2]
  have hparts : ((splitParas (normalizeNewlines text)).map trim).filter (fun s => !s.isEmpty)
      = [trim (normalizeNewlines text)] := by
    rw [splitParas_no_break hnb]
    simp [List.filter_cons, hfe]
  have hmapm : List.mapM (chunkPart cfg) [trim (normalizeNewlines text)]
      = some [[trim (normalizeNewlines text)]] := by
    rw [List.mapM_cons, List.mapM_nil, hcp]
    rfl
  unfold chunkText
  rw [hparts]
  show (do
      let chunkss ← List.mapM (chunkPart cfg) [trim (normalizeNewlines text)]
      pure chunkss.flatten) = some [trim (normalizeNewlines text)]
  rw [hmapm]
  rfl

/-- C3 counterexample: `"a\n\nb"` is a non-empty text shorter than the default
maximum chunk length, yet `chunkText` returns two chunks (the paragraph split
runs before the length check), not one chunk equal to the trimmed input. -/
theorem chunk_short_cex :
    ("a\n\nb".toList ≠ [] ∧ "a\n\nb".toList.length < defaultChunkCfg.maxLen) ∧
    chunkText defaultChunkCfg "a\n\nb".toList = some [['a'], ['b']] ∧
    (chunkText defaultChunkCfg "a\n\nb".toList).map List.length ≠ some 1 := by
  exact ⟨⟨by decide, by decide⟩, by decide, by decide⟩

/-- Witness for C3 (amended) at the concrete input `"  hi  "` under the
default configuration. -/
theorem chunk_short_single_witness :
    (hasParaBreak (normalizeNewlines "  hi  ".toList) = false ∧
      trim (normalizeNewlines "  hi  ".toList) ≠ [] ∧
      "  hi  ".toList.length < defaultChunkCfg.maxLen) ∧
    chunkText defaultChunkCfg "  hi  ".toList =
      some [trim (normalizeNewlines "  hi  ".toList)] :=
  ⟨⟨by decide, by decide, by decide⟩,
    chunk_short_single defaultChunkCfg "  hi  ".toList (by decide) (by decide) (by decide)⟩

theorem loopWindows_stuck (cfg : ChunkCfg) (hle : cfg.maxLen ≤ cfg.overlap)
    (part : List Char) (hlong : cfg.maxLen < part.length) :
    ∀ fuel, loopWindows cfg part 0 fuel = none := by
  intro fuel
  induction fuel with
  | zero => rfl
  | succ n ih =>
      have h0 : 0 < part.length := by omega
      have hmin : min part.length (0 + cfg.maxLen) = cfg.maxLen := by
        rw [Nat.zero_add]
        exact Nat.min_eq_right hlong.le
      simp only [loopWindows, if_pos h0, hmin]
      rw [if_neg (by omega : ¬ part.length ≤ cfg.maxLen)]
      have hz : cfg.maxLen - cfg.overlap = 0 := by omega
      rw [hz, ih]

theorem loopWindows_total (cfg : ChunkCfg) (hov : cfg.overlap < cfg.maxLen) (part : List Char) :
    ∀ fuel start, part.length - start < fuel →
      ∃ ws, loopWindows cfg part start fuel = some ws := by
  intro fuel
  induction fuel with
  | zero => intro start h; omega
  | succ n ih =>
      intro start h
      by_cases hs : start < part.length
      · by_cases he : part.length ≤ min part.length (start + cfg.maxLen)
        · exact ⟨[(part.drop start).take (min part.length (start + cfg.maxLen) - start)],
            by simp only [loopWindows, if_pos hs, if_pos he]⟩
        · obtain ⟨ws, hws⟩ :=
            ih (min part.length (start + cfg.maxLen) - cfg.overlap) (by omega)
          exact ⟨(part.drop start).take (min part.length (start + cfg.maxLen) - start) :: ws,
            by simp only [loopWindows, if_pos hs, if_neg he, hws]⟩
      · exact ⟨[], by simp only [loopWindows, if_neg hs]⟩

theorem chunkPart_total (cfg : ChunkCfg) (hov : cfg.overlap < cfg.maxLen) (part : List Char) :
    ∃ ws, chunkPart cfg part = some ws := by
  by_cases h : part.length ≤ cfg.maxLen
  · exact ⟨[part], by simp [chunkPart, h]⟩
  · obtain ⟨ws, hws⟩ := loopWindows_total cfg hov part (part.length + 1) 0 (by omega)
    exact ⟨ws, by simp [chunkPart, h, hws]⟩

theorem mapM_chunkPart_total (cfg : ChunkCfg) (hov : cfg.overlap < cfg.maxLen) :
    ∀ parts : List (List Char), ∃ r, List.mapM (chunkPart cfg) parts = some r := by
  intro parts
  induction parts with
  | nil => exact ⟨[], rfl⟩
  | cons p t ih =>
      obtain ⟨r, hr⟩ := ih
      obtain ⟨ws, hws⟩ := chunkPart_total cfg hov p
      exact ⟨ws :: r, by rw [List.mapM_cons, hws, hr]; rfl⟩

/-- Under the precondition `overlap < maxLen` the chunker terminates on every
input; the code never checks the precondition. -/
theorem chunkText_terminates (cfg : ChunkCfg) (hov : cfg.overlap < cfg.maxLen)
    (text : List Char) : ∃ chunks, chunkText cfg text = some chunks := by
  obtain ⟨r, hr⟩ := mapM_chunkPart_total cfg hov
    (((splitParas (normalizeNewlines text)).map trim).filter fun s => !s.isEmpty)
  refine ⟨r.flatten, ?_⟩
  unfold chunkText
  show (do
      let chunkss ← List.mapM (chunkPart cfg)
        (((splitParas (normalizeNewlines text)).map trim).filter fun s => !s.isEmpty)
      pure chunkss.flatten) = some r.flatten
  rw [hr]
  rfl

/-- C4: a configuration with `maxLen ≤ overlap` is not rejected anywhere; with
`maxLen = overlap = 1` the window loop on the two-character text `"ab"` makes
no progress (`start` stays `0`), so it returns `none` for every iteration
bound and `chunkText` never completes — the code silently loops forever
instead of failing with a configuration error. -/
theorem chunk_bad_config_loops_forever :
    (∀ fuel, loopWindows ⟨1, 1⟩ "ab".toList 0 fuel = none) ∧
    chunkText ⟨1, 1⟩ "ab".toList = none :=
  ⟨loopWindows_stuck ⟨1, 1⟩ (le_refl 1) "ab".toList (by decide), by decide⟩

theorem loopWindows_spec (cfg : ChunkCfg) (hov : cfg.overlap < cfg.maxLen) (part : List Char) :
    ∀ fuel start ws, loopWindows cfg part start fuel = some ws →
      (∀ w ∈ ws, w.length ≤ cfg.maxLen) ∧
      List.Chain' (overlapRel cfg.overlap) ws ∧
      (start < part.length →
        ws.head? = some ((part.drop start).take (min part.length (start + cfg.maxLen) - start))) := by
  intro fuel
  induction fuel with
  | zero => intro start ws h; exact absurd h (by simp [loopWindows])
  | succ n ih =>
      intro start ws h
      by_cases hs : start < part.length
      · by_cases he : part.length ≤ min part.length (start + cfg.maxLen)
        · simp only [loopWindows, if_pos hs, if_pos he, Option.some_inj] at h
          subst h
          refine ⟨?_, List.chain'_singleton _, fun _ => rfl⟩
          intro w hw
          simp only [List.mem_singleton] at hw
          subst hw
          exact le_trans (List.length_take_le _ _) (by omega)
        · simp only [loopWindows, if_pos hs, if_neg he] at h
          cases hrec : loopWindows cfg part
              (min part.length (start + cfg.maxLen) - cfg.overlap) n with
          | none => rw [hrec] at h; simp at h
          | some tail =>
              rw [hrec] at h
              simp only [Option.some_inj] at h
              subst h
              obtain ⟨hlen_all, hchain, hhead⟩ := ih _ tail hrec
              have hmin : min part.length (start + cfg.maxLen) = start + cfg.maxLen := by
                omega
              have hel : start + cfg.maxLen < part.length := by omega
              have hs' : min part.length (start + cfg.maxLen) - cfg.overlap
                  = start + (cfg.maxLen - cfg.overlap) := by omega
              have hs'lt : start + (cfg.maxLen - cfg.overlap) < part.length := by omega
              rw [hs'] at hhead
              have hw_len : ((part.drop start).take
                  (min part.length (start + cfg.maxLen) - start)).length = cfg.maxLen := by
                rw [List.length_take, List.length_drop]
                omega
              refine ⟨?_, ?_, fun _ => rfl⟩
              · intro w hw
                rcases List.mem_cons.mp hw with hw | hw
                · rw [hw, hw_len]
                · exact hlen_all w hw
              · rw [List.chain'_cons']
                refine ⟨?_, hchain⟩
                intro y hy
                rw [hhead hs'lt, Option.mem_def, Option.some_inj] at hy
                subst hy
                -- the overlap equation between consecutive windows
                rw [overlapRel, List.take_take, min_eq_left (by omega), hw_len,
                  List.drop_take, List.drop_drop]
                congr 1
                omega
      · simp only [loopWindows, if_neg hs, Option.some_inj] at h
        subst h
        exact ⟨by simp, List.chain'_nil, fun hcon => absurd hcon hs⟩

theorem chunkPart_spec (cfg : ChunkCfg) (hov : cfg.overlap < cfg.maxLen) (part : List Char)
    (ws : List (List Char)) (h : chunkPart cfg part = some ws) :
    (∀ w ∈ ws, w.length ≤ cfg.maxLen) ∧ List.Chain' (overlapRel cfg.overlap) ws := by
  by_cases hp : part.length ≤ cfg.maxLen
  · have hws : ws = [part] := by
      rw [chunkPart, if_pos hp, Option.some_inj] at h
      exact h.symm
    subst hws
    refine ⟨?_, List.chain'_singleton _⟩
    intro w hw
    simp only [List.mem_singleton] at hw
    subst hw
    exact hp
  · have h' : loopWindows cfg part 0 (part.length + 1) = some ws := by
      rwa [chunkPart, if_neg hp] at h
    obtain ⟨h1, h2, _⟩ := loopWindows_spec cfg hov part _ 0 ws h'
    exact ⟨h1, h2⟩

theorem mapM_chunkPart_mem (cfg : ChunkCfg) :
    ∀ (parts : List (List Char)) (r : List (List (List Char))),
      List.mapM (chunkPart cfg) parts = some r →
      ∀ ws ∈ r, ∃ part, chunkPart cfg part = some ws := by
  intro parts
  induction parts with
  | nil =>
      intro r h ws hws
      rw [List.mapM_nil] at h
      simp only [Option.pure_def, Option.some_inj] at h
      subst h
      simp at hws
  | cons p t ih =>
      intro r h ws hws
      rw [List.mapM_cons] at h
      cases hp : chunkPart cfg p with
      | none => rw [hp] at h; simp at h
      | some w0 =>
          rw [hp] at h
          cases ht : List.mapM (chunkPart cfg) t with
          | none => rw [ht] at h; simp at h
          | some rt =>
              rw [ht] at h
              simp at h
              subst h
              rcases List.mem_cons.mp hws with hw | hw
              · exact ⟨p, by rw [hp, hw]⟩
              · exact ih rt ht ws hw

/-- C8 (amended): every chunk `chunkText` emits has length at most `maxLen`,
and the chunk list is the concatenation of the per-paragraph-segment window
runs the chunker itself computes — `wss` is pinned as the image of the actual
trimmed, non-empty segments of the input under `chunkPart`, one run per
segment in order — and inside each such run every pair of consecutive chunks
overlaps by exactly `overlap` characters. Consecutive chunks that come from
different paragraph segments do not overlap (see `chunk_overlap_cex`), which
is what the amendment concedes. -/
theorem chunk_bounds_and_overlap (cfg : ChunkCfg) (hov : cfg.overlap < cfg.maxLen)
    (text : List Char) (chunks : List (List Char)) (hlong : cfg.maxLen < text.length)
    (h : chunkText cfg text = some chunks) :
    (∀ c ∈ chunks, c.length ≤ cfg.maxLen) ∧
    (∃ wss : List (List (List Char)),
      List.mapM (chunkPart cfg)
        (((splitParas (normalizeNewlines text)).map trim).filter fun s => !s.isEmpty) =
        some wss ∧
      chunks = wss.flatten ∧
      ∀ ws ∈ wss, List.Chain' (overlapRel cfg.overlap) ws) := by
  have h2 : (List.mapM (chunkPart cfg)
      (((splitParas (normalizeNewlines text)).map trim).filter fun s => !s.isEmpty)).bind
      (fun chunkss => some chunkss.flatten) = some chunks := h
  rw [Option.bind_eq_some] at h2
  obtain ⟨r, hr, hflat⟩ := h2
  simp only [Option.some_inj] at hflat
  subst hflat
  constructor
  · intro c hc
    obtain ⟨ws, hws, hcws⟩ := List.mem_flatten.mp hc
    obtain ⟨part, hpart⟩ := mapM_chunkPart_mem cfg _ r hr ws hws
    exact (chunkPart_spec cfg hov part ws hpart).1 c hcws
  · refine ⟨r, hr, rfl, ?_⟩
    intro ws hws
    obtain ⟨part, hpart⟩ := mapM_chunkPart_mem cfg _ r hr ws hws
    exact (chunkPart_spec cfg hov part ws hpart).2

/-- C8 counterexample: with `maxLen = 3` and `overlap = 1`, the 14-character
text `"aaaa\n\nbbbb\n\ncc"` yields five chunks, and the consecutive pair at
positions 1 and 2 — `"aa"` and `"bbb"`, which come from different paragraph
segments — does not overlap, although it is not the last pair (that is the
pair at positions 3 and 4). -/
theorem chunk_overlap_cex :
    (⟨3, 1⟩ : ChunkCfg).maxLen < "aaaa\n\nbbbb\n\ncc".toList.length ∧
    chunkText ⟨3, 1⟩ "aaaa\n\nbbbb\n\ncc".toList =
      some [['a', 'a', 'a'], ['a', 'a'], ['b', 'b', 'b'], ['b', 'b'], ['c', 'c']] ∧
    ¬ overlapRel 1 ['a', 'a'] ['b', 'b', 'b'] :=
  ⟨by decide, by decide, by decide⟩

/-- Witness for C8 (amended) with `maxLen = 3`, `overlap = 1` on `"aaaa"`. -/
theorem chunk_bounds_and_overlap_witness :
    ((⟨3, 1⟩ : ChunkCfg).overlap < (⟨3, 1⟩ : ChunkCfg).maxLen ∧
      (⟨3, 1⟩ : ChunkCfg).maxLen < "aaaa".toList.length ∧
      chunkText ⟨3, 1⟩ "aaaa".toList = some [['a', 'a', 'a'], ['a', 'a']]) ∧
    ((∀ c ∈ [['a', 'a', 'a'], ['a', 'a']], c.length ≤ (⟨3, 1⟩ : ChunkCfg).maxLen) ∧
      (∃ wss : List (List (List Char)),
        List.mapM (chunkPart ⟨3, 1⟩)
          (((splitParas (normalizeNewlines "aaaa".toList)).map trim).filter
            fun s => !s.isEmpty) = some wss ∧
        [['a', 'a', 'a'], ['a', 'a']] = wss.flatten ∧
        ∀ ws ∈ wss, List.Chain' (overlapRel (⟨3, 1⟩ : ChunkCfg).overlap) ws)) :=
  ⟨⟨by decide, by decide, by decide⟩,
    chunk_bounds_and_overlap ⟨3, 1⟩ (by decide) "aaaa".toList
      [['a', 'a', 'a'], ['a', 'a']] (by decide) (by decide)⟩

theorem buildRows_none (embed : String → Option (List ℝ)) (src : String) (now baseId : Nat) :
    ∀ (chunks : List (List Char)) (i : Nat),
      (∃ c ∈ chunks, embed (String.mk c) = none) →
      buildRows embed src now baseId chunks i = none := by
  intro chunks
  induction chunks with
  | nil =>
      intro i h
      obtain ⟨c, hc, _⟩ := h
      simp at hc
  | cons c cs ih =>
      intro i h
      obtain ⟨c0, hc0, hce⟩ := h
      cases he : embed (String.mk c) with
      | none => simp [buildRows, he]
      | some v =>
          rcases List.mem_cons.mp hc0 with hc0 | hmem
          · subst hc0
            rw [he] at hce
            exact absurd hce (by simp)
          · simp [buildRows, he, ih (i + 1) ⟨c0, hmem, hce⟩]

theorem buildRows_some (embed : String → Option (List ℝ)) (src : String) (now baseId : Nat) :
    ∀ (chunks : List (List Char)) (i : Nat),
      (∀ c ∈ chunks, embed (String.mk c) ≠ none) →
      ∃ rows, buildRows embed src now baseId chunks i = some rows ∧
        rows.length = chunks.length ∧
        rows.map RagRow.content = chunks.map String.mk ∧
        rows.map RagRow.chunk_index = List.range' i chunks.length := by
  intro chunks
  induction chunks with
  | nil => intro i _; exact ⟨[], rfl, rfl, rfl, rfl⟩
  | cons c cs ih =>
      intro i h
      cases he : embed (String.mk c) with
      | none => exact absurd he (h c (List.mem_cons_self c cs))
      | some v =>
          obtain ⟨rows, hr, hlen, hcont, hidx⟩ :=
            ih (i + 1) (fun d hd => h d (List.mem_cons_of_mem c hd))
          refine ⟨({ id := baseId + i, source := src, chunk_index := i,
                     content := String.mk c, embedding := some v,
                     created_at := now } : RagRow) :: rows,
            ?_, ?_, ?_, ?_⟩
          · simp [buildRows, he, hr]
          · simp [hlen]
          · simp [hcont]
          · simp [hidx, List.range'_succ]

/-- C1: ingest is atomic per call. With a valid request, a configured key and
a terminating chunker run: if embedding any chunk fails, the store is left
unchanged — zero rows persisted — and the handler answers with the catch-all
error; otherwise every chunk is appended to the store in one transaction, in
chunker order with consecutive indices from `0`, and the returned count equals
the number of chunks. -/
theorem ingest_atomic (cfg : ApiCfg) (embed : String → Option (List ℝ)) (rid : String)
    (now : Nat) (src : String) (text : List Char) (store : List RagRow)
    (chunks : List (List Char)) (key : String)
    (hkey : cfg.apiKey = some key) (hsrc : src.length ≠ 0) (htext : text.length ≠ 0)
    (hch : chunkText cfg.chunkCfg text = some chunks) :
    ((∃ c ∈ chunks, embed (String.mk c) = none) →
      ragIngest cfg embed rid now src text store = some (store, ingestInternalErrorResp rid)) ∧
    ((∀ c ∈ chunks, embed (String.mk c) ≠ none) →
      ∃ rows, ragIngest cfg embed rid now src text store =
          some (store ++ rows, ingestOkResp rid chunks.length) ∧
        rows.length = chunks.length ∧
        rows.map RagRow.content = chunks.map String.mk ∧
        rows.map RagRow.chunk_index = List.range' 0 chunks.length) := by
  have hval : ¬(src.length = 0 ∨ text.length = 0) := fun h => h.elim hsrc htext
  constructor
  · intro hfail
    simp only [ragIngest, if_neg hval, hkey, hch,
      buildRows_none embed src now store.length chunks 0 hfail]
  · intro hok
    obtain ⟨rows, hbr, hlen, hcont, hidx⟩ :=
      buildRows_some embed src now store.length chunks 0 hok
    refine ⟨rows, ?_, hlen, hcont, hidx⟩
    simp only [ragIngest, if_neg hval, hkey, hch, hbr, hlen]

/-- Witness for C1: ingesting `"hi"` into an empty store with an embedder that
always succeeds. -/
theorem ingest_atomic_witness :
    ((cfgW.apiKey = some "key" ∧ ("doc" : String).length ≠ 0 ∧
        "hi".toList.length ≠ 0 ∧ chunkText cfgW.chunkCfg "hi".toList = some [['h', 'i']]) ∧
      (∀ c ∈ [['h', 'i']],
        (fun _ => some [(1 : ℝ)] : String → Option (List ℝ)) (String.mk c) ≠ none)) ∧
    (∃ rows, ragIngest cfgW (fun _ => some [(1 : ℝ)]) "rid0" 0 "doc" "hi".toList [] =
        some ([] ++ rows, ingestOkResp "rid0" ([['h', 'i']] : List (List Char)).length) ∧
      rows.length = ([['h', 'i']] : List (List Char)).length ∧
      rows.map RagRow.content = ([['h', 'i']] : List (List Char)).map String.mk ∧
      rows.map RagRow.chunk_index = List.range' 0 ([['h', 'i']] : List (List Char)).length) :=
  ⟨⟨⟨rfl, by decide, by decide, by decide⟩, fun c hc => by simp⟩,
    (ingest_atomic cfgW (fun _ => some [(1 : ℝ)]) "rid0" 0 "doc" "hi".toList []
      [['h', 'i']] "key" rfl (by decide) (by decide) (by decide)).2 (fun c hc => by simp)⟩

/-- C5: the empty message sequence passes validation — `z.array(...)` in
`ChatRequestSchema` has no lower bound — and the handler proceeds all the way
to the completion provider, calling it with only the base system instruction,
instead of rejecting the request with `BAD_REQUEST` before any external
call. -/
theorem chat_empty_messages_reaches_provider :
    chatReqValid { messages := [] } = true ∧
    chatHandler cfgW (fun _ => none) [] (fun _ => .httpOk (some "hello")) "rid0"
        { messages := [] } =
      ([ExtCall.completionCall [⟨PRole.system, defaultSystemPrompt⟩]],
        okChatResp "rid0" "hello" []) :=
  ⟨rfl, rfl⟩

/-- C6 (amended): when the completion call fails — as when the timeout fires
and the `AbortController` aborts the in-flight `fetch`, making it reject —
the request fails with the generic catch-all `500 INTERNAL_ERROR` response
carrying the correlation id; the code has no distinct `UpstreamTimeout`
kind. -/
theorem chat_timeout_generic_internal_error (cfg : ApiCfg)
    (embedO : String → Option (List ℝ)) (rows : List RagRow)
    (completeO : List PMsg → CompletionOutcome) (rid : String) (req : ChatReq)
    (key : String) (calls : List ExtCall) (pr : String × List Citation)
    (hvalid : chatReqValid req = true) (hkey : cfg.apiKey = some key)
    (hph : ragPhase embedO rows (req.top_k.getD cfg.ragTopK) (req.use_rag == some true)
        (lastUserContent req.messages) = (calls, some pr))
    (hto : ∀ ms, completeO ms = .failed) :
    (chatHandler cfg embedO rows completeO rid req).2 = internalErrorResp rid := by
  obtain ⟨ragContext, citations⟩ := pr
  simp only [chatHandler, hvalid, hkey, hph, hto, if_true]

/-- Witness for C6 (amended) on a one-message request with retrieval off. -/
theorem chat_timeout_generic_internal_error_witness :
    (chatReqValid { messages := [⟨Role.user, "hi"⟩] } = true ∧
      cfgW.apiKey = some "key" ∧
      ragPhase (fun _ => none) []
          (({ messages := [⟨Role.user, "hi"⟩] } : ChatReq).top_k.getD cfgW.ragTopK)
          (({ messages := [⟨Role.user, "hi"⟩] } : ChatReq).use_rag == some true)
          (lastUserContent ({ messages := [⟨Role.user, "hi"⟩] } : ChatReq).messages) =
        ([], some ("", [])) ∧
      (∀ ms, (fun _ => CompletionOutcome.failed : List PMsg → CompletionOutcome) ms =
        .failed)) ∧
    (chatHandler cfgW (fun _ => none) [] (fun _ => .failed) "rid0"
        { messages := [⟨Role.user, "hi"⟩] }).2 = internalErrorResp "rid0" :=
  ⟨⟨rfl, rfl, rfl, fun _ => rfl⟩,
    chat_timeout_generic_internal_error cfgW (fun _ => none) [] (fun _ => .failed) "rid0"
      { messages := [⟨Role.user, "hi"⟩] } "key" [] ("", []) rfl rfl rfl (fun _ => rfl)⟩

/-- C6 counterexample: the timed-out completion call is answered with exactly
the generic internal-error response — the kind the claim says a timeout must
be distinct from; no timeout-specific code exists among the handler's
responses. -/
theorem chat_timeout_cex :
    (chatHandler cfgW (fun _ => none) [] (fun _ => .failed) "rid0"
        { messages := [⟨Role.user, "hi"⟩] }).2 = internalErrorResp "rid0" ∧
    internalErrorResp "rid0" =
      ⟨500, some "INTERNAL_ERROR", some "Internal server error", "rid0", []⟩ :=
  ⟨rfl, rfl⟩

/-- C7 (amended): with retrieval enabled and a non-empty latest user message,
a failing embedding call fails the whole request — the trace shows the embed
call and no completion call, so retrieval is never silently skipped — and the
failure is surfaced as the generic catch-all `500 INTERNAL_ERROR` with the
correlation id; the code has no embedding-specific error kind. -/
theorem chat_embed_failure_fails_request (cfg : ApiCfg)
    (embedO : String → Option (List ℝ)) (rows : List RagRow)
    (completeO : List PMsg → CompletionOutcome) (rid : String) (req : ChatReq)
    (key s : String)
    (hvalid : chatReqValid req = true) (hkey : cfg.apiKey = some key)
    (hrag : req.use_rag = some true)
    (hlast : lastUserContent req.messages = some s) (hs : 0 < s.length)
    (hemb : embedO s = none) :
    chatHandler cfg embedO rows completeO rid req =
      ([ExtCall.embedCall s], internalErrorResp rid) := by
  have hph : ragPhase embedO rows (req.top_k.getD cfg.ragTopK) (req.use_rag == some true)
      (lastUserContent req.messages) = ([ExtCall.embedCall s], none) := by
    rw [hlast, hrag]
    simp [ragPhase, hemb, hs]
  simp only [chatHandler, hvalid, hkey, hph, if_true]

/-- Witness for C7 (amended) on a concrete retrieval-enabled request whose
embedding call fails. -/
theorem chat_embed_failure_fails_request_witness :
    (chatReqValid { messages := [⟨Role.user, "hi"⟩], use_rag := some true } = true ∧
      cfgW.apiKey = some "key" ∧
      ({ messages := [⟨Role.user, "hi"⟩], use_rag := some true } : ChatReq).use_rag =
        some true ∧
      lastUserContent
          ({ messages := [⟨Role.user, "hi"⟩], use_rag := some true } : ChatReq).messages =
        some "hi" ∧
      0 < ("hi" : String).length ∧
      (fun _ => none : String → Option (List ℝ)) "hi" = none) ∧
    chatHandler cfgW (fun _ => none) [] (fun _ => .httpOk (some "hello")) "rid0"
        { messages := [⟨Role.user, "hi"⟩], use_rag := some true } =
      ([ExtCall.embedCall "hi"], internalErrorResp "rid0") :=
  ⟨⟨rfl, rfl, rfl, rfl, by decide, rfl⟩,
    chat_embed_failure_fails_request cfgW (fun _ => none) []
      (fun _ => .httpOk (some "hello")) "rid0"
      { messages := [⟨Role.user, "hi"⟩], use_rag := some true } "key" "hi"
      rfl rfl rfl rfl (by decide) rfl⟩

/-- C7 counterexample: the embedding failure is surfaced with the generic
`INTERNAL_ERROR` code — not an embedding-specific kind such as the claim's
`EmbeddingUpstreamError` or `EmbeddingResponseInvalid`, neither of which
occurs among the code's response codes. -/
theorem chat_embed_failure_cex :
    chatHandler cfgW (fun _ => none) [] (fun _ => .httpOk (some "hello")) "rid0"
        { messages := [⟨Role.user, "hi"⟩], use_rag := some true } =
      ([ExtCall.embedCall "hi"], internalErrorResp "rid0") ∧
    (internalErrorResp "rid0").code = some "INTERNAL_ERROR" :=
  ⟨rfl, rfl⟩

theorem ctxEntry_length_pos (x : RagRow × ℝ) : 0 < (ctxEntry x).length := by
  have h8 : ("Source: " : String).length = 8 := rfl
  simp [ctxEntry, String.length_append, h8]

theorem ragContextOf_pos_iff (scored : List (RagRow × ℝ)) :
    0 < (ragContextOf scored).length ↔ scored ≠ [] := by
  cases scored with
  | nil => simp [ragContextOf, joinSep]
  | cons x rest =>
      constructor
      · intro _
        exact List.cons_ne_nil x rest
      · intro _
        cases rest with
        | nil => simpa [ragContextOf, joinSep] using ctxEntry_length_pos x
        | cons y t =>
            have h1 := ctxEntry_length_pos x
            simp [ragContextOf, joinSep, String.length_append]
            omega

/-- C10: with retrieval enabled and every stage succeeding, the returned
citations and the retrieval-context system instruction are images of the same
scored top-`k` list, in the same order — `citations` maps each pair through
`mkCitation` while the context joins the same pairs' `ctxEntry` lines — and
the extra system instruction is part of the provider call exactly when at
least one qualifying chunk was retrieved. -/
theorem citations_match_context (cfg : ApiCfg) (embedO : String → Option (List ℝ))
    (rows : List RagRow) (completeO : List PMsg → CompletionOutcome) (rid : String)
    (req : ChatReq) (key s ans : String) (qv : List ℝ)
    (hvalid : chatReqValid req = true) (hkey : cfg.apiKey = some key)
    (hrag : req.use_rag = some true)
    (hlast : lastUserContent req.messages = some s) (hs : 0 < s.length)
    (hemb : embedO s = some qv)
    (hok : ∀ ms, completeO ms = .httpOk (some ans)) (hans : 0 < ans.length) :
    ∃ msgs : List PMsg,
      chatHandler cfg embedO rows completeO rid req =
        ([ExtCall.embedCall s, ExtCall.completionCall msgs],
          okChatResp rid ans (citationsOf (retrieve qv rows (req.top_k.getD cfg.ragTopK)))) ∧
      (retrieve qv rows (req.top_k.getD cfg.ragTopK) = [] →
        msgs = ⟨PRole.system, cfg.systemPrompt⟩ :: req.messages.map toPMsg) ∧
      (retrieve qv rows (req.top_k.getD cfg.ragTopK) ≠ [] →
        msgs = ⟨PRole.system, cfg.systemPrompt⟩ ::
          ⟨PRole.system, ctxInstructionPrefix ++
            ragContextOf (retrieve qv rows (req.top_k.getD cfg.ragTopK))⟩ ::
          req.messages.map toPMsg) ∧
      citationsOf (retrieve qv rows (req.top_k.getD cfg.ragTopK)) =
        (retrieve qv rows (req.top_k.getD cfg.ragTopK)).map mkCitation ∧
      ragContextOf (retrieve qv rows (req.top_k.getD cfg.ragTopK)) =
        joinSep "\n\n" ((retrieve qv rows (req.top_k.getD cfg.ragTopK)).map ctxEntry) := by
  have hph : ragPhase embedO rows (req.top_k.getD cfg.ragTopK) (req.use_rag == some true)
      (lastUserContent req.messages)
      = ([ExtCall.embedCall s],
          some (ragContextOf (retrieve qv rows (req.top_k.getD cfg.ragTopK)),
            citationsOf (retrieve qv rows (req.top_k.getD cfg.ragTopK)))) := by
    rw [hlast, hrag]
    simp [ragPhase, hemb, hs]
  have hragb : (req.use_rag == some true) = true := by rw [hrag]; rfl
  by_cases hempty : retrieve qv rows (req.top_k.getD cfg.ragTopK) = []
  · refine ⟨⟨PRole.system, cfg.systemPrompt⟩ :: req.messages.map toPMsg, ?_,
      fun _ => rfl, fun hne => absurd hempty hne, rfl, rfl⟩
    have hzero :
        ¬ (0 < (ragContextOf (retrieve qv rows (req.top_k.getD cfg.ragTopK))).length) := by
      rw [ragContextOf_pos_iff]
      simpa using hempty
    simp only [chatHandler, hvalid, hkey, hph, hok, if_true]
    rw [if_neg (fun hc => hzero hc.2), if_pos hans]
    simp
  · refine ⟨⟨PRole.system, cfg.systemPrompt⟩ ::
        ⟨PRole.system, ctxInstructionPrefix ++
          ragContextOf (retrieve qv rows (req.top_k.getD cfg.ragTopK))⟩ ::
        req.messages.map toPMsg, ?_,
      fun hc => absurd hc hempty, fun _ => rfl, rfl, rfl⟩
    have hpos : 0 < (ragContextOf (retrieve qv rows (req.top_k.getD cfg.ragTopK))).length :=
      (ragContextOf_pos_iff _).mpr hempty
    simp only [chatHandler, hvalid, hkey, hph, hok, if_true]
    rw [if_pos ⟨hragb, hpos⟩, if_pos hans]
    simp

/-- Witness for C10 on the concrete retrieval-enabled request `reqRag` with an
empty store (the retrieved list is empty, the context instruction is omitted,
and the citations list is empty). -/
theorem citations_match_context_witness :
    (chatReqValid reqRag = true ∧
      cfgW.apiKey = some "key" ∧
      reqRag.use_rag = some true ∧
      lastUserContent reqRag.messages = some "hi" ∧
      0 < ("hi" : String).length ∧
      (fun _ => some [(1 : ℝ)] : String → Option (List ℝ)) "hi" = some [(1 : ℝ)] ∧
      (∀ ms, (fun _ => CompletionOutcome.httpOk (some "ok") :
          List PMsg → CompletionOutcome) ms = .httpOk (some "ok")) ∧
      0 < ("ok" : String).length) ∧
    (∃ msgs : List PMsg,
      chatHandler cfgW (fun _ => some [(1 : ℝ)]) [] (fun _ => .httpOk (some "ok")) "rid0"
          reqRag =
        ([ExtCall.embedCall "hi", ExtCall.completionCall msgs],
          okChatResp "rid0" "ok"
            (citationsOf (retrieve [(1 : ℝ)] [] (reqRag.top_k.getD cfgW.ragTopK)))) ∧
      (retrieve [(1 : ℝ)] [] (reqRag.top_k.getD cfgW.ragTopK) = [] →
        msgs = ⟨PRole.system, cfgW.systemPrompt⟩ :: reqRag.messages.map toPMsg) ∧
      (retrieve [(1 : ℝ)] [] (reqRag.top_k.getD cfgW.ragTopK) ≠ [] →
        msgs = ⟨PRole.system, cfgW.systemPrompt⟩ ::
          ⟨PRole.system, ctxInstructionPrefix ++
            ragContextOf (retrieve [(1 : ℝ)] [] (reqRag.top_k.getD cfgW.ragTopK))⟩ ::
          reqRag.messages.map toPMsg) ∧
      citationsOf (retrieve [(1 : ℝ)] [] (reqRag.top_k.getD cfgW.ragTopK)) =
        (retrieve [(1 : ℝ)] [] (reqRag.top_k.getD cfgW.ragTopK)).map mkCitation ∧
      ragContextOf (retrieve [(1 : ℝ)] [] (reqRag.top_k.getD cfgW.ragTopK)) =
        joinSep "\n\n"
          ((retrieve [(1 : ℝ)] [] (reqRag.top_k.getD cfgW.ragTopK)).map ctxEntry)) :=
  ⟨⟨rfl, rfl, rfl, rfl, by decide, rfl, fun _ => rfl, by decide⟩,
    citations_match_context cfgW (fun _ => some [(1 : ℝ)]) []
      (fun _ => .httpOk (some "ok")) "rid0" reqRag "key" "hi" "ok" [(1 : ℝ)]
      rfl rfl rfl rfl (by decide) rfl (fun _ => rfl) (by decide)⟩

end RagApi
